import Mathlib

/-!
Verification development for the `CodeAutoFixEngine` repair pipeline
(`demo.py`).  Python strings are modelled as `List Char` (`Text`); a
multi-line text is split into physical lines exactly as Python's
`str.split('\n')` does.  The Python `ast` parser and the external
`black` formatter are external collaborators: they are modelled as
injected oracles (`parse : Text → Option Node`, `BlackEnv`), matching
the spec's "consumed as a black box" boundary.  `set(dir(__builtins__))`
is likewise an injected read-only name list.

Python's hash-based set iteration order is unspecified; the embedding
realises each set as a duplicate-free list in first-insertion order
(`addSet`), a deterministic refinement of that unspecified order.
-/

namespace Demo

/-- Text is a Python string: a list of characters. -/
abbrev Text := List Char

/-- Convert a Lean string literal to the `Text` model. -/
def chars (s : String) : Text := s.data

/-- Python whitespace characters as tested by `str.strip()`/`str.split()`
(ASCII range; all texts in this development are ASCII). -/
def isPySpace (c : Char) : Bool :=
  c = ' ' || c = '\t' || c = '\n' || c = '\r' || c = '\x0b' || c = '\x0c'

/-- Python `str.split('\n')`: split a text into physical lines. -/
def splitNl : Text → List Text
  | [] => [[]]
  | c :: rest =>
    if c = '\n' then [] :: splitNl rest
    else
      match splitNl rest with
      | [] => [[c]]
      | p :: ps => (c :: p) :: ps

/-- Python `'\n'.join(lines)`. -/
def joinNl : List Text → Text
  | [] => []
  | [l] => l
  | l :: ls => l ++ '\n' :: joinNl ls

/-- Python `str.strip()`: drop leading and trailing whitespace. -/
def pyStrip (l : Text) : Text :=
  ((l.dropWhile isPySpace).reverse.dropWhile isPySpace).reverse

/-- Accumulator loop for `str.split()` (split on whitespace runs, drop
empty pieces). -/
def splitWsGo : Text → Text → List Text
  | [], acc => if acc.isEmpty then [] else [acc.reverse]
  | c :: cs, acc =>
    if isPySpace c then
      if acc.isEmpty then splitWsGo cs [] else acc.reverse :: splitWsGo cs []
    else splitWsGo cs (c :: acc)

/-- Python `str.split()` with no separator argument. -/
def pySplitWs (l : Text) : List Text := splitWsGo l []

/-- The compound-statement opener keywords of the two regexes in
`auto_fix_syntax_errors`. -/
def openerKeywords : List Text :=
  [chars "if", chars "elif", chars "for", chars "while", chars "def", chars "class"]

/-- The regex `^(if|elif|for|while|def|class) .*(?<!:)$` of
`auto_fix_syntax_errors`, applied to the stripped line: an opener keyword
followed by a literal space, with the character before the end of the
line not a colon.  (Lines contain no newline, so `.*` and `$` impose no
further condition.) -/
def openerNoColon (stripped : Text) : Bool :=
  openerKeywords.any (fun kw => (kw ++ [' ']).isPrefixOf stripped) &&
    !(stripped.getLast? == some ':')

/-- The regex `^(\s*)(if|elif|for|while|def|class) .+:$` of the
empty-block pass of `auto_fix_syntax_errors`, applied to the full line:
optional leading whitespace, an opener keyword, a space, at least one
character, and a final colon. -/
def openerColonLine (line : Text) : Bool :=
  let rest := line.dropWhile isPySpace
  openerKeywords.any
      (fun kw => (kw ++ [' ']).isPrefixOf rest && decide (kw.length + 3 ≤ rest.length)) &&
    rest.getLast? == some ':'

/-- First pass of `auto_fix_syntax_errors`: append a missing colon to a
line whose stripped content is an opener clause. -/
def colonize1 (line : Text) : Text :=
  if openerNoColon (pyStrip line) then line ++ [':'] else line

/-- Python `re.sub(r'\t', '    ', s)`: replace every tab by four spaces. -/
def expandTabs (t : Text) : Text :=
  t.flatMap (fun c => if c = '\t' then chars "    " else [c])

/-- The placeholder body line inserted after an empty block opener. -/
def passLine : Text := chars "    pass"

/-- The condition `i + 1 >= len(lines) or lines[i + 1].strip() == ''` of
the empty-block pass, expressed on the list of remaining lines. -/
def nextBlank : List Text → Bool
  | [] => true
  | n :: _ => (pyStrip n).isEmpty

/-- Third pass of `auto_fix_syntax_errors`: after every well-formed block
opener whose following line is absent or blank, insert `    pass`. -/
def insertPass : List Text → List Text
  | [] => []
  | l :: rest =>
    if openerColonLine l then
      if nextBlank rest then l :: passLine :: insertPass rest
      else l :: insertPass rest
    else l :: insertPass rest

/-- Number of placeholder lines `insertPass` inserts. -/
def passCount : List Text → Nat
  | [] => 0
  | l :: rest =>
    if openerColonLine l then
      if nextBlank rest then 1 + passCount rest
      else passCount rest
    else passCount rest

/-- The `auto_fix_syntax_errors` method: append missing colons, expand
tabs to four spaces, insert placeholder bodies after empty block openers. -/
def auto_fix_syntax_errors (code : Text) : Text :=
  let corrected := (splitNl code).map colonize1
  let fixed := expandTabs (joinNl corrected)
  joinNl (insertPass (splitNl fixed))




/-- Expression context of a Python `ast.Name` node (`ast.Load`,
`ast.Store`, `ast.Del`). -/
inductive Ctx where
  | load
  | store
  | del
deriving DecidableEq

/-- Tagged-variant model of the Python `ast` node kinds the engine
dispatches on (`ast.Assign`, `ast.FunctionDef`, `ast.Name`) plus the
loop node (`ast.For`, needed to state the spec's loop-bound set); every
other node kind is opaque and only contributes its child nodes
(`other`), exactly as `ast.walk` treats it.  A `functionDef` carries the
parameter names (`node.args.args[i].arg`), its immediate body
statements, and its `lineno`. -/
inductive Node where
  | assign : List Node → Node → Node
  | functionDef : Text → List Text → List Node → Nat → Node
  | name : Text → Ctx → Node
  | forStmt : Node → Node → List Node → Node
  | other : List Node → Node

/-- Child nodes of a node, as `ast.iter_child_nodes` yields them. -/
def children : Node → List Node
  | .assign targets value => targets ++ [value]
  | .functionDef _ _ body _ => body
  | .name _ _ => []
  | .forStmt target iter body => target :: iter :: body
  | .other cs => cs

mutual
/-- Nodes of the subtree rooted at a node.  `ast.walk` enumerates the
same nodes breadth-first; the engine only ever builds order-insensitive
sets from the enumeration (and iterates the resulting set in an
unspecified order), so the structurally recursive preorder enumeration
is used here. -/
def walkNode : Node → List Node
  | .assign targets value =>
      .assign targets value :: (walkList targets ++ walkNode value)
  | .functionDef nm args body ln =>
      .functionDef nm args body ln :: walkList body
  | .name id ctx => [.name id ctx]
  | .forStmt target iter body =>
      .forStmt target iter body :: (walkNode target ++ walkNode iter ++ walkList body)
  | .other cs => .other cs :: walkList cs

/-- Nodes of the subtrees rooted at each node of a list, in order. -/
def walkList : List Node → List Node
  | [] => []
  | n :: ns => walkNode n ++ walkList ns
end

/-- Nodes enumerated by `ast.walk(tree)` (see `walkNode`). -/
def walk (t : Node) : List Node := walkNode t

/-- Add an element to a set modelled as a duplicate-free list
(`set.add`), keeping first-insertion order. -/
def addSet (s : List Text) (x : Text) : List Text :=
  if x ∈ s then s else s ++ [x]

/-- One iteration of the scanning loop of `fix_undefined_variables`:
assignment targets that are simple names and function parameters go to
`defined_vars`, name references in `Load` context go to `used_vars`. -/
def scanStep (acc : List Text × List Text) (n : Node) : List Text × List Text :=
  match n with
  | .assign targets _ =>
      (targets.foldl
        (fun d t => match t with | .name id _ => addSet d id | _ => d) acc.1,
       acc.2)
  | .functionDef _ args _ _ => (args.foldl addSet acc.1, acc.2)
  | .name id ctx =>
      match ctx with
      | .load => (acc.1, addSet acc.2 id)
      | _ => acc
  | _ => acc

/-- The `(defined_vars, used_vars)` pair collected by the walk loop of
`fix_undefined_variables`. -/
def scanVars (ns : List Node) : List Text × List Text :=
  ns.foldl scanStep ([], [])

/-- The `defined_vars` set of `fix_undefined_variables`. -/
def definedVars (tree : Node) : List Text := (scanVars (walk tree)).1

/-- The `used_vars` set of `fix_undefined_variables`. -/
def usedVars (tree : Node) : List Text := (scanVars (walk tree)).2

/-- The set difference `used_vars - defined_vars - set(dir(__builtins__))`
computed by `fix_undefined_variables`. -/
def undefList (tree : Node) (builtins : List Text) : List Text :=
  (usedVars tree).filter
    (fun v => decide (v ∉ definedVars tree) && decide (v ∉ builtins))

/-- The prepended declaration block
`''.join(f'{var} = 0\n' for var in undefined_vars)`. -/
def declarationsOf (vs : List Text) : Text :=
  (vs.map (fun v => v ++ chars " = 0\n")).flatten

/-- The `fix_undefined_variables` method.  `parse` is the `ast.parse`
oracle (`none` models the raised exception, caught by the method's
`except` clause); `builtins` models `set(dir(__builtins__))`. -/
def fix_undefined_variables (parse : Text → Option Node) (builtins : List Text)
    (code : Text) : Text :=
  match parse code with
  | none => code
  | some tree =>
    if (undefList tree builtins).isEmpty then code
    else declarationsOf (undefList tree builtins) ++ code

/-- One iteration of the scanning loop of `fix_undefined_returns`: only
`defined_vars` is collected (assignment targets and parameters). -/
def scanDefStep (d : List Text) (n : Node) : List Text :=
  match n with
  | .assign targets _ =>
      targets.foldl (fun d t => match t with | .name id _ => addSet d id | _ => d) d
  | .functionDef _ args _ _ => args.foldl addSet d
  | _ => d

/-- The `defined_vars` set collected by `fix_undefined_returns`. -/
def returnsDefined (tree : Node) : List Text :=
  (walk tree).foldl scanDefStep []

/-- Look an index up in a list, Python-style: an out-of-range index is
an `IndexError` (an `Except.error`). -/
def pyGet (l : List α) (i : Nat) : Except Unit α :=
  match l.get? i with
  | some a => .ok a
  | none => .error ()

/-- One iteration of the line loop of `fix_undefined_returns`: if the
stripped line starts with `return `, take `line.strip().split()[1]` and,
when it is not a defined name, replace the whole line with the text
`return None`. -/
def fixReturnLine (defined : List Text) (line : Text) : Except Unit Text :=
  if (chars "return ").isPrefixOf (pyStrip line) then
    match pyGet (pySplitWs (pyStrip line)) 1 with
    | .error e => .error e
    | .ok rv => .ok (if rv ∈ defined then line else chars "return None")
  else .ok line

/-- The line loop of `fix_undefined_returns`; an `IndexError` anywhere
aborts the whole loop (and the method then returns its input unchanged). -/
def fixReturnLines (defined : List Text) : List Text → Except Unit (List Text)
  | [] => .ok []
  | l :: ls =>
    match fixReturnLine defined l with
    | .error e => .error e
    | .ok l2 =>
      match fixReturnLines defined ls with
      | .error e => .error e
      | .ok ls2 => .ok (l2 :: ls2)

/-- The `fix_undefined_returns` method. -/
def fix_undefined_returns (parse : Text → Option Node) (code : Text) : Text :=
  match parse code with
  | none => code
  | some tree =>
    match fixReturnLines (returnsDefined tree) (splitNl code) with
    | .ok ls => joinNl ls
    | .error _ => code

/-- Per-line transformation of `fix_style_issues`: truncate a line
longer than 100 characters to its first 100 characters plus the marker. -/
def styleLine (l : Text) : Text :=
  if 100 < l.length then l.take 100 ++ chars "  # truncated" else l

/-- The `fix_style_issues` method. -/
def fix_style_issues (code : Text) : Text :=
  joinNl ((splitNl code).map styleLine)

/-- Outcome model of the three fallible external steps of
`auto_format_with_black`: writing the temporary file, running the
`black` subprocess (an `error` is a raised exception such as
`FileNotFoundError`; `black`'s own exit code is not checked), and
reading the file back. -/
structure BlackEnv where
  writeTemp : Text → Except Unit Text
  runBlack : Text → Except Unit Unit
  readBack : Text → Except Unit Text

/-- The `auto_format_with_black` method: any exception in the
write/run/read sequence is swallowed and the input code returned
unchanged. -/
def auto_format_with_black (env : BlackEnv) (code : Text) : Text :=
  match env.writeTemp code with
  | .error _ => code
  | .ok fname =>
    match env.runBlack fname with
    | .error _ => code
    | .ok _ =>
      match env.readBack fname with
      | .error _ => code
      | .ok formatted => formatted

/-- A `BlackEnv` in which the subprocess invocation raises
(`black` not installed). -/
def blackMissing : BlackEnv where
  writeTemp := fun _ => .ok (chars "/tmp/t.py")
  runBlack := fun _ => .error ()
  readBack := fun _ => .error ()

/-- The `auto_fix_code` driver: the five repair stages in their fixed
order (progress printing omitted). -/
def auto_fix_code (parse : Text → Option Node) (builtins : List Text)
    (env : BlackEnv) (original : Text) : Text :=
  let f1 := auto_fix_syntax_errors original
  let f2 := fix_undefined_variables parse builtins f1
  let f3 := fix_undefined_returns parse f2
  let f4 := fix_style_issues f3
  auto_format_with_black env f4

/-- The first four stages (the pipeline minus the delegated-formatting
stage), as quantified over by the idempotence property. -/
def noBlackPipe (parse : Text → Option Node) (builtins : List Text)
    (code : Text) : Text :=
  fix_style_issues (fix_undefined_returns parse
    (fix_undefined_variables parse builtins (auto_fix_syntax_errors code)))

/-- A concrete stand-in for `set(dir(__builtins__))` in the closed
end-to-end theorems: the built-ins the concrete programs mention. -/
def builtinsDemo : List Text := [chars "print", chars "range"]

/-- Names a single node contributes to `defined_vars`: its simple-name
assignment targets, or its parameter names. -/
def definedNamesOf : Node → List Text
  | .assign targets _ =>
      targets.filterMap (fun t => match t with | .name id _ => some id | _ => none)
  | .functionDef _ args _ _ => args
  | _ => []

/-- Names a single node contributes to `used_vars`: its identifier if it
is a name reference in `Load` context. -/
def usedNamesOf : Node → List Text
  | .name id .load => [id]
  | _ => []


/-- Number of occurrences of a name in a name list. -/
def occurrences (v : Text) : List Text → Nat
  | [] => 0
  | w :: ws => (if w = v then 1 else 0) + occurrences v ws


/-- Per-line result of the `fix_undefined_returns` loop, as a total
function (the index-error branch of `fixReturnLine` is unreachable, see
`fixReturnLine_ok`). -/
def rewriteReturnLine (defined : List Text) (line : Text) : Text :=
  if (chars "return ").isPrefixOf (pyStrip line) then
    match (pySplitWs (pyStrip line)).get? 1 with
    | some rv => if rv ∈ defined then line else chars "return None"
    | none => line
  else line


/-! The detection side of the engine.  Only the repair pipeline is under
src/; the Issue model and the long-function detector below are modelled
from the spec. -/

/-- Modelled from the spec: the closed `IssueKind` set of the
Issue/Report model; the detection engine carrying it is not under src/. -/
inductive IssueKind where
  | syntaxError
  | undefinedVariable
  | codeSmell
  | styleIssue
  | toolError
deriving DecidableEq

/-- Modelled from the spec: the shared Issue record
`{ kind, message, line }` of the detection engine, which is not under
src/. -/
structure Issue where
  kind : IssueKind
  message : Text
  line : Nat
deriving DecidableEq

/-- Decimal rendering of a number, for issue messages. -/
def natToText (n : Nat) : Text := (toString n).data

/-- Modelled from the spec: the message of a long-function `CodeSmell`
issue, naming the function and the count. -/
def mkLongMsg (nm : Text) (cnt : Nat) : Text :=
  chars "Function " ++ nm ++ chars " is too long (" ++ natToText cnt ++ chars " statements)"

/-- Modelled from the spec: the per-node test of the long-function
detector — a function-definition node whose count of immediate body
statements exceeds the threshold yields one issue at its definition
line. -/
def isLongFn (threshold : Nat) (n : Node) : Option Issue :=
  match n with
  | .functionDef nm _ body ln =>
    if threshold < body.length then some ⟨.codeSmell, mkLongMsg nm body.length, ln⟩
    else none
  | _ => none

/-- Modelled from the spec: the long-function detector ("for every
function-definition node, count immediate body statements; if the count
exceeds a configurable threshold (default 20), emit one CodeSmell issue
naming the function and the count, at the function's definition line");
the detector code is not under src/. -/
def longFunctionCheck (threshold : Nat) (tree : Node) : List Issue :=
  (walk tree).filterMap (isLongFn threshold)

/-- Whether a node is a function definition longer than the threshold. -/
def longFnNode (threshold : Nat) (n : Node) : Bool :=
  match n with
  | .functionDef _ _ body _ => decide (threshold < body.length)
  | _ => false

/-- A function with 25 single-statement body lines, as in the spec's
end-to-end scenario for the long-function detector. -/
def bigFnTree : Node :=
  .other [.functionDef (chars "big") [] (List.replicate 25 (.other [])) 1]


/-- Modelled from the spec: the `loopBound` scope set ("a loop
construct's target name adds to loopBound"); the repair stage under
src/ maintains no such set. -/
def loopBoundVars (tree : Node) : List Text :=
  (walk tree).foldl
    (fun acc n => match n with
      | .forStmt (.name id _) _ _ => addSet acc id
      | _ => acc) []

/-- Modelled from the spec: the stub set
`used − defined − loopBound − builtinNames` that the spec asserts for
the stub-insertion stage. -/
def specUndefined (tree : Node) (builtins : List Text) : List Text :=
  (usedVars tree).filter (fun v =>
    decide (v ∉ definedVars tree) && decide (v ∉ loopBoundVars tree) &&
      decide (v ∉ builtins))

/-! Concrete programs, their syntax trees, and parse oracles.  Each
oracle returns the tree `ast.parse` produces on exactly the texts the
traced pipeline run parses, and fails (raises) on every other text. -/

/-- The end-to-end scenario input of the spec. -/
def inputC1 : Text := chars "def f():\n    if x > 5\n        return y\n"

/-- The scenario input after structural-token repair. -/
def textC1a : Text := chars "def f():\n    if x > 5:\n        return y\n"

/-- The scenario text after stub insertion. -/
def textC1b : Text := chars "x = 0\ny = 0\ndef f():\n    if x > 5:\n        return y\n"

/-- Syntax tree of `textC1a`:
`Module([FunctionDef f([], [If(x > 5, [Return y])])])`. -/
def treeC1a : Node :=
  .other [.functionDef (chars "f") []
    [.other [.other [.name (chars "x") .load, .other []],
             .other [.name (chars "y") .load]]] 1]

/-- Syntax tree of `textC1b`: the two stub assignments followed by the
function. -/
def treeC1b : Node :=
  .other [.assign [.name (chars "x") .store] (.other []),
          .assign [.name (chars "y") .store] (.other []),
          .functionDef (chars "f") []
            [.other [.other [.name (chars "x") .load, .other []],
                     .other [.name (chars "y") .load]]] 3]

/-- Parse oracle for the end-to-end scenario. -/
def parseC1 : Text → Option Node := fun s =>
  if s = textC1a then some treeC1a
  else if s = textC1b then some treeC1b
  else none


/-- A program whose only binding of `i` is as a loop iteration
variable. -/
def textC2 : Text := chars "for i in range(3):\n    print(i)"

/-- Syntax tree of `textC2`:
`Module([For(i, range(3), [Expr(print(i))])])`. -/
def treeC2 : Node :=
  .forStmt (.name (chars "i") .store)
    (.other [.name (chars "range") .load, .other []])
    [.other [.other [.name (chars "print") .load, .name (chars "i") .load]]]
  |> fun f => .other [f]

/-- Parse oracle for `textC2`. -/
def parseC2 : Text → Option Node := fun s =>
  if s = textC2 then some treeC2 else none


/-- A program with a forward reference: `a` is read on line 1 and only
assigned on line 2. -/
def textC3 : Text := chars "print(a)\na = 1"

/-- Syntax tree of `textC3`:
`Module([Expr(print(a)), Assign([a], 1)])`. -/
def treeC3 : Node :=
  .other [.other [.other [.name (chars "print") .load, .name (chars "a") .load]],
          .assign [.name (chars "a") .store] (.other [])]

/-- Parse oracle for `textC3`. -/
def parseC3 : Text → Option Node := fun s =>
  if s = textC3 then some treeC3 else none


/-- A function returning a literal. -/
def textC4 : Text := chars "def f():\n    return 5"

/-- Syntax tree of `textC4`: `Module([FunctionDef f([], [Return 5])])`. -/
def treeC4 : Node :=
  .other [.functionDef (chars "f") [] [.other [.other []]] 1]

/-- Parse oracle for `textC4`. -/
def parseC4 : Text → Option Node := fun s =>
  if s = textC4 then some treeC4 else none


/-- A function whose body returns an undefined name from a deeper
indentation level. -/
def textC10 : Text := chars "def g():\n        return q"

/-- Syntax tree of `textC10`:
`Module([FunctionDef g([], [Return q])])`. -/
def treeC10 : Node :=
  .other [.functionDef (chars "g") [] [.other [.name (chars "q") .load]] 1]

/-- Parse oracle for `textC10`. -/
def parseC10 : Text → Option Node := fun s =>
  if s = textC10 then some treeC10 else none


/-- The tab-keyword input on which the pipeline is not idempotent. -/
def inputC6 : Text := chars "if\tx > 5"

/-- First-run pipeline output on `inputC6`. -/
def textC6a : Text := chars "if    x > 5"

/-- Second-run text after structural-token repair. -/
def textC6b : Text := chars "if    x > 5:\n    pass"

/-- Second-run text after stub insertion. -/
def textC6c : Text := chars "x = 0\nif    x > 5:\n    pass"

/-- Syntax tree of `textC6b`: `Module([If(x > 5, [Pass])])`. -/
def treeC6b : Node :=
  .other [.other [.other [.name (chars "x") .load, .other []], .other []]]

/-- Syntax tree of `textC6c`: the stub assignment followed by the `if`. -/
def treeC6c : Node :=
  .other [.assign [.name (chars "x") .store] (.other []),
          .other [.other [.name (chars "x") .load, .other []], .other []]]

/-- Parse oracle for the idempotence counterexample: the first-run
intermediate texts are not parseable (`if    x > 5` is a syntax error),
the second-run ones are. -/
def parseC6 : Text → Option Node := fun s =>
  if s = textC6b then some treeC6b
  else if s = textC6c then some treeC6c
  else none


/-! Lemmas about line splitting and joining. -/

theorem splitNl_ne_nil (s : Text) : splitNl s ≠ [] := by
  cases s with
  | nil => simp [splitNl]
  | cons c rest =>
    simp only [splitNl]
    split
    · simp
    · split <;> simp

theorem not_mem_splitNl {s : Text} {p : Text} (hp : p ∈ splitNl s) : '\n' ∉ p := by
  induction s generalizing p with
  | nil =>
    simp [splitNl] at hp
    subst hp; simp
  | cons c rest ih =>
    by_cases hc : c = '\n'
    · subst hc
      simp only [splitNl, if_pos rfl] at hp
      rcases List.mem_cons.mp hp with h | h
      · subst h; simp
      · exact ih h
    · simp only [splitNl, if_neg hc] at hp
      rcases hq : splitNl rest with _ | ⟨q, qs⟩
      · exact absurd hq (splitNl_ne_nil rest)
      · rw [hq] at hp
        rcases List.mem_cons.mp hp with h | h
        · subst h
          intro hmem
          rcases List.mem_cons.mp hmem with h' | h'
          · exact hc h'.symm
          · exact ih (hq ▸ List.mem_cons_self q qs) h'
        · exact ih (hq ▸ List.mem_cons.mpr (Or.inr h))

theorem splitNl_eq_self {l : Text} (hl : '\n' ∉ l) : splitNl l = [l] := by
  induction l with
  | nil => rfl
  | cons c rest ih =>
    have hc : ¬ c = '\n' := fun h => hl (h ▸ List.mem_cons_self c rest)
    have hrest : '\n' ∉ rest := fun h => hl (List.mem_cons.mpr (Or.inr h))
    simp only [splitNl, if_neg hc, ih hrest]

theorem splitNl_append_cons {l : Text} (hl : '\n' ∉ l) (t : Text) :
    splitNl (l ++ '\n' :: t) = l :: splitNl t := by
  induction l with
  | nil => simp [splitNl]
  | cons c rest ih =>
    have hc : ¬ c = '\n' := fun h => hl (h ▸ List.mem_cons_self c rest)
    have hrest : '\n' ∉ rest := fun h => hl (List.mem_cons.mpr (Or.inr h))
    have happ : rest.append ('\n' :: t) = rest ++ '\n' :: t := rfl
    simp only [List.cons_append, splitNl, if_neg hc, happ, ih hrest]

theorem splitNl_joinNl {ls : List Text} (h : ∀ l ∈ ls, '\n' ∉ l) (hne : ls ≠ []) :
    splitNl (joinNl ls) = ls := by
  induction ls with
  | nil => exact absurd rfl hne
  | cons l rest ih =>
    cases rest with
    | nil => exact splitNl_eq_self (h l (List.mem_cons_self l []))
    | cons l2 rest2 =>
      have hstep : joinNl (l :: l2 :: rest2) = l ++ '\n' :: joinNl (l2 :: rest2) := rfl
      rw [hstep, splitNl_append_cons (h l (List.mem_cons_self l _)),
        ih (fun x hx => h x (List.mem_cons.mpr (Or.inr hx))) (by simp)]

/-! Lemmas about tab expansion. -/

theorem expandTabs_append (a b : Text) :
    expandTabs (a ++ b) = expandTabs a ++ expandTabs b := by
  simp [expandTabs]

theorem expandTabs_joinNl (ls : List Text) :
    expandTabs (joinNl ls) = joinNl (ls.map expandTabs) := by
  induction ls with
  | nil => rfl
  | cons l rest ih =>
    cases rest with
    | nil => rfl
    | cons l2 rest2 =>
      have hstep : joinNl (l :: l2 :: rest2) = l ++ '\n' :: joinNl (l2 :: rest2) := rfl
      have hstep2 : joinNl (expandTabs l :: expandTabs l2 :: rest2.map expandTabs) =
          expandTabs l ++ '\n' :: joinNl (expandTabs l2 :: rest2.map expandTabs) := rfl
      rw [hstep, expandTabs_append, List.map_cons, List.map_cons, hstep2]
      have hnl : expandTabs ('\n' :: joinNl (l2 :: rest2)) =
          '\n' :: expandTabs (joinNl (l2 :: rest2)) := rfl
      rw [hnl, ih, List.map_cons]

theorem noTab_expandTabs {t : Text} (h : ∀ c ∈ t, ¬ c = '\t') : expandTabs t = t := by
  induction t with
  | nil => rfl
  | cons c rest ih =>
    have hc : ¬ c = '\t' := h c (List.mem_cons_self c rest)
    have : expandTabs (c :: rest) = (if c = '\t' then chars "    " else [c]) ++ expandTabs rest := rfl
    rw [this, if_neg hc, ih (fun x hx => h x (List.mem_cons.mpr (Or.inr hx)))]
    rfl

theorem mem_expandTabs {t : Text} {c : Char} (hc : c ∈ expandTabs t) :
    c ∈ t ∨ c = ' ' := by
  rcases List.mem_flatMap.mp hc with ⟨a, ha, hca⟩
  by_cases hat : a = '\t'
  · right
    rw [if_pos hat] at hca
    have hsp : chars "    " = [' ', ' ', ' ', ' '] := rfl
    rw [hsp] at hca
    simp at hca
    exact hca
  · left
    rw [if_neg hat] at hca
    rw [List.mem_singleton] at hca
    exact hca ▸ ha

theorem nl_not_mem_expandTabs {t : Text} (h : '\n' ∉ t) : '\n' ∉ expandTabs t := by
  intro hmem
  rcases mem_expandTabs hmem with hm | hm
  · exact h hm
  · cases hm

theorem tab_not_mem_expandTabs (t : Text) : '\t' ∉ expandTabs t := by
  intro hmem
  rcases List.mem_flatMap.mp hmem with ⟨a, ha, hca⟩
  by_cases hat : a = '\t'
  · rw [if_pos hat] at hca
    have hsp : chars "    " = [' ', ' ', ' ', ' '] := rfl
    rw [hsp] at hca
    simp at hca
  · rw [if_neg hat] at hca
    rw [List.mem_singleton] at hca
    exact hat hca.symm

/-! Lemmas about stripping and the colon pass. -/

theorem head?_dropWhile {p : Char → Bool} {l : Text} {a : Char}
    (h : (l.dropWhile p).head? = some a) : ¬ p a = true := by
  induction l with
  | nil => cases h
  | cons c rest ih =>
    by_cases hc : p c = true
    · rw [List.dropWhile_cons_of_pos hc] at h
      exact ih h
    · rw [List.dropWhile_cons_of_neg hc] at h
      cases h
      exact hc

theorem pyStrip_getLast?_not_space {l : Text} {c : Char}
    (h : (pyStrip l).getLast? = some c) : ¬ isPySpace c = true := by
  unfold pyStrip at h
  rw [List.getLast?_reverse] at h
  exact head?_dropWhile h

theorem dropWhile_append_singleton {p : Char → Bool} {c : Char} (hc : ¬ p c = true)
    (l : Text) : ∃ m, l.dropWhile p ++ [c] = m ++ [c] ∧
      (l ++ [c]).dropWhile p = m ++ [c] := by
  induction l with
  | nil => exact ⟨[], rfl, by simp [List.dropWhile_cons_of_neg hc]⟩
  | cons a rest ih =>
    by_cases ha : p a = true
    · rcases ih with ⟨m, hm1, hm2⟩
      refine ⟨m, ?_, ?_⟩
      · rw [List.dropWhile_cons_of_pos ha]; exact hm1
      · rw [List.cons_append, List.dropWhile_cons_of_pos ha]; exact hm2
    · refine ⟨a :: rest, ?_, ?_⟩
      · rw [List.dropWhile_cons_of_neg ha]
      · rw [List.cons_append, List.dropWhile_cons_of_neg ha]

theorem getLast?_pyStrip_append {c : Char} (hc : ¬ isPySpace c = true) (l : Text) :
    (pyStrip (l ++ [c])).getLast? = some c := by
  rcases dropWhile_append_singleton hc l with ⟨m, _, hm⟩
  unfold pyStrip
  rw [hm, List.reverse_append, List.reverse_cons, List.reverse_nil, List.nil_append,
    List.cons_append, List.nil_append, List.dropWhile_cons_of_neg hc,
    List.reverse_cons, List.getLast?_concat]

theorem colonize1_idem (l : Text) : colonize1 (colonize1 l) = colonize1 l := by
  by_cases h : openerNoColon (pyStrip l) = true
  · have h1 : colonize1 l = l ++ [':'] := by rw [colonize1, if_pos h]
    have hcolon : ¬ isPySpace ':' = true := by decide
    have hlast := getLast?_pyStrip_append hcolon l
    have h2 : openerNoColon (pyStrip (l ++ [':'])) = false := by
      rw [openerNoColon, hlast]
      simp
    rw [h1, colonize1, h2]
    simp
  · have h1 : colonize1 l = l := by rw [colonize1, if_neg h]
    rw [h1, colonize1, if_neg h]

theorem colonize1_eq_or (l : Text) : colonize1 l = l ∨ colonize1 l = l ++ [':'] := by
  by_cases h : openerNoColon (pyStrip l) = true
  · right; rw [colonize1, if_pos h]
  · left; rw [colonize1, if_neg h]

theorem nl_not_mem_colonize1 {l : Text} (h : '\n' ∉ l) : '\n' ∉ colonize1 l := by
  rcases colonize1_eq_or l with hc | hc <;> rw [hc]
  · exact h
  · intro hmem
    rcases List.mem_append.mp hmem with hm | hm
    · exact h hm
    · rw [List.mem_singleton] at hm
      exact absurd hm (by decide)

theorem tab_not_mem_colonize1 {l : Text} (h : '\t' ∉ l) : '\t' ∉ colonize1 l := by
  rcases colonize1_eq_or l with hc | hc <;> rw [hc]
  · exact h
  · intro hmem
    rcases List.mem_append.mp hmem with hm | hm
    · exact h hm
    · rw [List.mem_singleton] at hm
      exact absurd hm (by decide)

/-! Lemmas about placeholder-body insertion. -/

theorem insertPass_cons (n : Text) (t : List Text) :
    ∃ z, insertPass (n :: t) = n :: z := by
  by_cases hn : openerColonLine n = true
  · by_cases hb : nextBlank t = true
    · exact ⟨passLine :: insertPass t, by rw [insertPass, if_pos hn, if_pos hb]⟩
    · exact ⟨insertPass t, by rw [insertPass, if_pos hn, if_neg hb]⟩
  · exact ⟨insertPass t, by rw [insertPass, if_neg hn]⟩

theorem sublist_insertPass (xs : List Text) : xs.Sublist (insertPass xs) := by
  induction xs with
  | nil => exact List.Sublist.refl []
  | cons l rest ih =>
    by_cases hl : openerColonLine l = true
    · by_cases hb : nextBlank rest = true
      · rw [insertPass, if_pos hl, if_pos hb]
        exact (ih.cons passLine).cons₂ l
      · rw [insertPass, if_pos hl, if_neg hb]
        exact ih.cons₂ l
    · rw [insertPass, if_neg hl]
      exact ih.cons₂ l

theorem length_insertPass (xs : List Text) :
    (insertPass xs).length = xs.length + passCount xs := by
  induction xs with
  | nil => rfl
  | cons l rest ih =>
    by_cases hl : openerColonLine l = true
    · by_cases hb : nextBlank rest = true
      · rw [insertPass, if_pos hl, if_pos hb, passCount, if_pos hl, if_pos hb]
        simp only [List.length_cons, ih]
        omega
      · rw [insertPass, if_pos hl, if_neg hb, passCount, if_pos hl, if_neg hb]
        simp only [List.length_cons, ih]
        omega
    · rw [insertPass, if_neg hl, passCount, if_neg hl]
      simp only [List.length_cons, ih]
      omega

theorem mem_insertPass {xs : List Text} {m : Text} (hm : m ∈ insertPass xs) :
    m ∈ xs ∨ m = passLine := by
  induction xs with
  | nil => cases hm
  | cons l rest ih =>
    by_cases hl : openerColonLine l = true
    · by_cases hb : nextBlank rest = true
      · rw [insertPass, if_pos hl, if_pos hb] at hm
        rcases List.mem_cons.mp hm with h | h
        · exact Or.inl (h ▸ List.mem_cons_self l _)
        · rcases List.mem_cons.mp h with h' | h'
          · exact Or.inr h'
          · rcases ih h' with h'' | h''
            · exact Or.inl (List.mem_cons.mpr (Or.inr h''))
            · exact Or.inr h''
      · rw [insertPass, if_pos hl, if_neg hb] at hm
        rcases List.mem_cons.mp hm with h | h
        · exact Or.inl (h ▸ List.mem_cons_self l _)
        · rcases ih h with h'' | h''
          · exact Or.inl (List.mem_cons.mpr (Or.inr h''))
          · exact Or.inr h''
    · rw [insertPass, if_neg hl] at hm
      rcases List.mem_cons.mp hm with h | h
      · exact Or.inl (h ▸ List.mem_cons_self l _)
      · rcases ih h with h'' | h''
        · exact Or.inl (List.mem_cons.mpr (Or.inr h''))
        · exact Or.inr h''

theorem insertPass_idem (xs : List Text) :
    insertPass (insertPass xs) = insertPass xs := by
  induction xs with
  | nil => rfl
  | cons l rest ih =>
    by_cases hl : openerColonLine l = true
    · by_cases hb : nextBlank rest = true
      · rw [insertPass, if_pos hl, if_pos hb]
        have hnb : nextBlank (passLine :: insertPass rest) = false := rfl
        rw [insertPass, if_pos hl, if_neg (by rw [hnb]; simp)]
        rw [insertPass, if_neg (by decide : ¬ openerColonLine passLine = true), ih]
      · have hrest : ∃ n t, rest = n :: t := by
          cases rest with
          | nil => exact absurd (rfl : nextBlank ([] : List Text) = true) hb
          | cons n t => exact ⟨n, t, rfl⟩
        rcases hrest with ⟨n, t, rfl⟩
        rw [insertPass, if_pos hl, if_neg hb]
        rcases insertPass_cons n t with ⟨z, hz⟩
        rw [hz, insertPass, if_pos hl, if_neg (show ¬ nextBlank (n :: z) = true from hb),
          ← hz, ih]
    · rw [insertPass, if_neg hl]
      rw [insertPass, if_neg hl, ih]

theorem insertPass_ne_nil {xs : List Text} (h : xs ≠ []) : insertPass xs ≠ [] := by
  intro hc
  have := length_insertPass xs
  rw [hc] at this
  have hlen : xs.length ≠ 0 := fun h0 => h (List.length_eq_zero.mp h0)
  simp at this
  omega

theorem map_eq_self {α : Type} {l : List α} {f : α → α} (h : ∀ a ∈ l, f a = a) :
    l.map f = l := by
  induction l with
  | nil => rfl
  | cons a t ih =>
    rw [List.map_cons, h a (List.mem_cons_self a t),
      ih (fun x hx => h x (List.mem_cons.mpr (Or.inr hx)))]

theorem mem_of_mem_splitNl {s p : Text} (hp : p ∈ splitNl s) {c : Char} (hc : c ∈ p) :
    c ∈ s := by
  induction s generalizing p with
  | nil =>
    simp [splitNl] at hp
    subst hp
    cases hc
  | cons a rest ih =>
    by_cases ha : a = '\n'
    · subst ha
      simp only [splitNl, if_pos rfl] at hp
      rcases List.mem_cons.mp hp with h | h
      · subst h; cases hc
      · exact List.mem_cons.mpr (Or.inr (ih h hc))
    · simp only [splitNl, if_neg ha] at hp
      rcases hq : splitNl rest with _ | ⟨q, qs⟩
      · exact absurd hq (splitNl_ne_nil rest)
      · rw [hq] at hp
        rcases List.mem_cons.mp hp with h | h
        · subst h
          rcases List.mem_cons.mp hc with h' | h'
          · exact List.mem_cons.mpr (Or.inl h')
          · exact List.mem_cons.mpr
              (Or.inr (ih (hq ▸ List.mem_cons_self q qs) h'))
        · exact List.mem_cons.mpr (Or.inr (ih (hq ▸ List.mem_cons.mpr (Or.inr h)) hc))

/-! The structural-token repair stage in normal form, and its
idempotence on tab-free input. -/

theorem fixSyntax_eq (code : Text) :
    auto_fix_syntax_errors code =
      joinNl (insertPass ((splitNl code).map (fun l => expandTabs (colonize1 l)))) := by
  show joinNl (insertPass (splitNl (expandTabs (joinNl ((splitNl code).map colonize1))))) = _
  rw [expandTabs_joinNl]
  have h1 : ∀ l ∈ ((splitNl code).map colonize1).map expandTabs, '\n' ∉ l := by
    intro l hl
    rcases List.mem_map.mp hl with ⟨m, hm, rfl⟩
    rcases List.mem_map.mp hm with ⟨p, hp, rfl⟩
    exact nl_not_mem_expandTabs (nl_not_mem_colonize1 (not_mem_splitNl hp))
  have h2 : ((splitNl code).map colonize1).map expandTabs ≠ [] := by
    intro hc
    have := splitNl_ne_nil code
    simp at hc
    exact this hc
  rw [splitNl_joinNl h1 h2]
  rw [List.map_map]
  rfl

theorem fixSyntax_idem {code : Text} (h : '\t' ∉ code) :
    auto_fix_syntax_errors (auto_fix_syntax_errors code) = auto_fix_syntax_errors code := by
  have hpieces : ∀ p ∈ splitNl code, '\t' ∉ p :=
    fun p hp hc => h (mem_of_mem_splitNl hp hc)
  have hmap : (splitNl code).map (fun l => expandTabs (colonize1 l)) =
      (splitNl code).map colonize1 := by
    apply List.map_congr_left
    intro p hp
    exact noTab_expandTabs (fun c hc hct =>
      tab_not_mem_colonize1 (hpieces p hp) (hct ▸ hc))
  have h1 : auto_fix_syntax_errors code =
      joinNl (insertPass ((splitNl code).map colonize1)) := by
    rw [fixSyntax_eq, hmap]
  have hysmem : ∀ m ∈ insertPass ((splitNl code).map colonize1),
      ('\n' ∉ m ∧ '\t' ∉ m ∧ colonize1 m = m) := by
    intro m hm
    rcases mem_insertPass hm with h' | h'
    · rcases List.mem_map.mp h' with ⟨p, hp, rfl⟩
      exact ⟨nl_not_mem_colonize1 (not_mem_splitNl hp),
        tab_not_mem_colonize1 (hpieces p hp), colonize1_idem p⟩
    · subst h'
      refine ⟨by decide, by decide, by decide⟩
  have hysne : insertPass ((splitNl code).map colonize1) ≠ [] :=
    insertPass_ne_nil (by
      intro hc
      exact splitNl_ne_nil code (List.map_eq_nil_iff.mp hc))
  rw [h1, fixSyntax_eq]
  rw [splitNl_joinNl (fun m hm => (hysmem m hm).1) hysne]
  have hmap2 : (insertPass ((splitNl code).map colonize1)).map
      (fun l => expandTabs (colonize1 l)) = insertPass ((splitNl code).map colonize1) := by
    apply map_eq_self
    intro m hm
    rw [(hysmem m hm).2.2]
    exact noTab_expandTabs (fun c hc hct => (hysmem m hm).2.1 (hct ▸ hc))
  rw [hmap2, insertPass_idem]

/-! The line-truncation stage: per-line characterisation and
idempotence. -/

theorem nl_not_mem_styleLine {l : Text} (h : '\n' ∉ l) : '\n' ∉ styleLine l := by
  unfold styleLine
  split
  · intro hmem
    rcases List.mem_append.mp hmem with hm | hm
    · exact h (List.take_subset 100 l hm)
    · exact absurd hm (by decide)
  · exact h

theorem splitNl_fix_style (code : Text) :
    splitNl (fix_style_issues code) = (splitNl code).map styleLine := by
  unfold fix_style_issues
  rw [splitNl_joinNl]
  · intro l hl
    rcases List.mem_map.mp hl with ⟨p, hp, rfl⟩
    exact nl_not_mem_styleLine (not_mem_splitNl hp)
  · intro hc
    exact splitNl_ne_nil code (List.map_eq_nil_iff.mp hc)

theorem length_styleLine_gt {l : Text} (h : 100 < l.length) :
    (styleLine l).length = 113 := by
  unfold styleLine
  rw [if_pos h, List.length_append, List.length_take]
  have : min 100 l.length = 100 := Nat.min_eq_left (Nat.le_of_lt h)
  rw [this]
  rfl

theorem styleLine_idem (l : Text) : styleLine (styleLine l) = styleLine l := by
  by_cases h : 100 < l.length
  · have h1 : styleLine l = l.take 100 ++ chars "  # truncated" := by
      unfold styleLine; rw [if_pos h]
    have h2 : 100 < (styleLine l).length := by rw [length_styleLine_gt h]; omega
    have htake : (l.take 100 ++ chars "  # truncated").take 100 = l.take 100 := by
      rw [List.take_append_eq_append_take]
      have hlen : (l.take 100).length = 100 := by
        rw [List.length_take]
        exact Nat.min_eq_left (Nat.le_of_lt h)
      rw [List.take_of_length_le (by rw [hlen]), hlen]
      simp
    conv_lhs => rw [styleLine]
    rw [if_pos (h1 ▸ h2), h1, htake, ← h1]
  · have h1 : styleLine l = l := by unfold styleLine; rw [if_neg h]
    rw [h1, h1]

theorem fix_style_idem (code : Text) :
    fix_style_issues (fix_style_issues code) = fix_style_issues code := by
  have h1 : fix_style_issues (fix_style_issues code) =
      joinNl ((splitNl (fix_style_issues code)).map styleLine) := rfl
  have h2 : fix_style_issues code = joinNl ((splitNl code).map styleLine) := rfl
  rw [h1, splitNl_fix_style, List.map_map, h2]
  congr 1
  apply List.map_congr_left
  intro p _
  exact styleLine_idem p

/-! Characterisation of the scope-set scan: which names end up in
`defined_vars` and `used_vars`, independent of visit order. -/

theorem mem_addSet {s : List Text} {x v : Text} : v ∈ addSet s x ↔ v ∈ s ∨ v = x := by
  by_cases h : x ∈ s
  · rw [addSet, if_pos h]
    constructor
    · exact Or.inl
    · rintro (hv | rfl)
      · exact hv
      · exact h
  · rw [addSet, if_neg h, List.mem_append, List.mem_singleton]

theorem nodup_addSet {s : List Text} (hs : s.Nodup) (x : Text) : (addSet s x).Nodup := by
  by_cases h : x ∈ s
  · rw [addSet, if_pos h]; exact hs
  · rw [addSet, if_neg h]
    exact hs.append (List.nodup_singleton x)
      (fun a ha hax => h (List.mem_singleton.mp hax ▸ ha))

theorem mem_foldl_asg {targets : List Node} {d : List Text} {v : Text} :
    v ∈ targets.foldl
        (fun d t => match t with | .name id _ => addSet d id | _ => d) d ↔
      v ∈ d ∨ v ∈ definedNamesOf (.assign targets (.other [])) := by
  induction targets generalizing d with
  | nil => simp [definedNamesOf]
  | cons t ts ih =>
    rw [List.foldl_cons]
    cases t with
    | name id ctx =>
      rw [ih, mem_addSet]
      simp only [definedNamesOf, List.filterMap_cons]
      rw [List.mem_cons]
      tauto
    | assign a b =>
      rw [ih]
      simp only [definedNamesOf, List.filterMap_cons]
    | functionDef a b c e =>
      rw [ih]
      simp only [definedNamesOf, List.filterMap_cons]
    | forStmt a b c =>
      rw [ih]
      simp only [definedNamesOf, List.filterMap_cons]
    | other a =>
      rw [ih]
      simp only [definedNamesOf, List.filterMap_cons]

theorem mem_foldl_addSet {args : List Text} {d : List Text} {v : Text} :
    v ∈ args.foldl addSet d ↔ v ∈ d ∨ v ∈ args := by
  induction args generalizing d with
  | nil => simp
  | cons a as ih =>
    rw [List.foldl_cons, ih, mem_addSet, List.mem_cons]
    tauto

theorem mem_scanStep_fst {acc : List Text × List Text} {n : Node} {v : Text} :
    v ∈ (scanStep acc n).1 ↔ v ∈ acc.1 ∨ v ∈ definedNamesOf n := by
  cases n with
  | assign targets value =>
    have h := @mem_foldl_asg targets acc.1 v
    simp only [scanStep]
    rw [h]
    simp [definedNamesOf]
  | functionDef nm args body ln =>
    simp only [scanStep]
    rw [mem_foldl_addSet]
    simp [definedNamesOf]
  | name id ctx =>
    cases ctx <;> simp [scanStep, definedNamesOf]
  | forStmt a b c => simp [scanStep, definedNamesOf]
  | other a => simp [scanStep, definedNamesOf]

theorem mem_scanStep_snd {acc : List Text × List Text} {n : Node} {v : Text} :
    v ∈ (scanStep acc n).2 ↔ v ∈ acc.2 ∨ v ∈ usedNamesOf n := by
  cases n with
  | assign targets value => simp [scanStep, usedNamesOf]
  | functionDef nm args body ln => simp [scanStep, usedNamesOf]
  | name id ctx =>
    cases ctx with
    | load =>
      simp only [scanStep]
      rw [mem_addSet]
      simp [usedNamesOf]
    | store => simp [scanStep, usedNamesOf]
    | del => simp [scanStep, usedNamesOf]
  | forStmt a b c => simp [scanStep, usedNamesOf]
  | other a => simp [scanStep, usedNamesOf]

theorem mem_foldl_scanStep_fst {ns : List Node} {acc : List Text × List Text} {v : Text} :
    v ∈ (ns.foldl scanStep acc).1 ↔ v ∈ acc.1 ∨ ∃ n ∈ ns, v ∈ definedNamesOf n := by
  induction ns generalizing acc with
  | nil => simp
  | cons n ns ih =>
    rw [List.foldl_cons, ih, mem_scanStep_fst]
    simp only [List.mem_cons]
    constructor
    · rintro ((h | h) | ⟨m, hm, hv⟩)
      · exact Or.inl h
      · exact Or.inr ⟨n, Or.inl rfl, h⟩
      · exact Or.inr ⟨m, Or.inr hm, hv⟩
    · rintro (h | ⟨m, hm | hm, hv⟩)
      · exact Or.inl (Or.inl h)
      · exact Or.inl (Or.inr (hm ▸ hv))
      · exact Or.inr ⟨m, hm, hv⟩

theorem mem_foldl_scanStep_snd {ns : List Node} {acc : List Text × List Text} {v : Text} :
    v ∈ (ns.foldl scanStep acc).2 ↔ v ∈ acc.2 ∨ ∃ n ∈ ns, v ∈ usedNamesOf n := by
  induction ns generalizing acc with
  | nil => simp
  | cons n ns ih =>
    rw [List.foldl_cons, ih, mem_scanStep_snd]
    simp only [List.mem_cons]
    constructor
    · rintro ((h | h) | ⟨m, hm, hv⟩)
      · exact Or.inl h
      · exact Or.inr ⟨n, Or.inl rfl, h⟩
      · exact Or.inr ⟨m, Or.inr hm, hv⟩
    · rintro (h | ⟨m, hm | hm, hv⟩)
      · exact Or.inl (Or.inl h)
      · exact Or.inl (Or.inr (hm ▸ hv))
      · exact Or.inr ⟨m, hm, hv⟩

theorem mem_definedVars {tree : Node} {v : Text} :
    v ∈ definedVars tree ↔ ∃ n ∈ walk tree, v ∈ definedNamesOf n := by
  unfold definedVars scanVars
  rw [mem_foldl_scanStep_fst]
  simp

theorem mem_usedVars {tree : Node} {v : Text} :
    v ∈ usedVars tree ↔ ∃ n ∈ walk tree, v ∈ usedNamesOf n := by
  unfold usedVars scanVars
  rw [mem_foldl_scanStep_snd]
  simp

theorem nodup_foldl_asg {targets : List Node} {d : List Text} (hd : d.Nodup) :
    (targets.foldl
      (fun d t => match t with | .name id _ => addSet d id | _ => d) d).Nodup := by
  induction targets generalizing d with
  | nil => exact hd
  | cons t ts ih =>
    rw [List.foldl_cons]
    cases t with
    | name id ctx => exact ih (nodup_addSet hd id)
    | assign a b => exact ih hd
    | functionDef a b c e => exact ih hd
    | forStmt a b c => exact ih hd
    | other a => exact ih hd

theorem nodup_foldl_addSet {args : List Text} {d : List Text} (hd : d.Nodup) :
    (args.foldl addSet d).Nodup := by
  induction args generalizing d with
  | nil => exact hd
  | cons a as ih => exact ih (nodup_addSet hd a)

theorem nodup_scanStep {acc : List Text × List Text} {n : Node}
    (h1 : acc.1.Nodup) (h2 : acc.2.Nodup) :
    (scanStep acc n).1.Nodup ∧ (scanStep acc n).2.Nodup := by
  cases n with
  | assign targets value => exact ⟨nodup_foldl_asg h1, h2⟩
  | functionDef nm args body ln => exact ⟨nodup_foldl_addSet h1, h2⟩
  | name id ctx =>
    cases ctx with
    | load => exact ⟨h1, nodup_addSet h2 id⟩
    | store => exact ⟨h1, h2⟩
    | del => exact ⟨h1, h2⟩
  | forStmt a b c => exact ⟨h1, h2⟩
  | other a => exact ⟨h1, h2⟩

theorem nodup_scanVars (ns : List Node) :
    (scanVars ns).1.Nodup ∧ (scanVars ns).2.Nodup := by
  unfold scanVars
  suffices h : ∀ acc : List Text × List Text, acc.1.Nodup → acc.2.Nodup →
      (ns.foldl scanStep acc).1.Nodup ∧ (ns.foldl scanStep acc).2.Nodup by
    exact h ([], []) List.nodup_nil List.nodup_nil
  induction ns with
  | nil => exact fun acc h1 h2 => ⟨h1, h2⟩
  | cons n ns ih =>
    intro acc h1 h2
    rw [List.foldl_cons]
    have := @nodup_scanStep acc n h1 h2
    exact ih _ this.1 this.2

theorem mem_undefList {tree : Node} {builtins : List Text} {v : Text} :
    v ∈ undefList tree builtins ↔
      v ∈ usedVars tree ∧ v ∉ definedVars tree ∧ v ∉ builtins := by
  unfold undefList
  rw [List.mem_filter]
  constructor
  · rintro ⟨h1, h2⟩
    simp only [Bool.and_eq_true, decide_eq_true_eq] at h2
    exact ⟨h1, h2.1, h2.2⟩
  · rintro ⟨h1, h2, h3⟩
    exact ⟨h1, by simp [h2, h3]⟩

theorem occurrences_eq_zero {v : Text} {l : List Text} (h : v ∉ l) :
    occurrences v l = 0 := by
  induction l with
  | nil => rfl
  | cons w ws ih =>
    have hw : ¬ w = v := fun hv => h (hv ▸ List.mem_cons_self w ws)
    rw [occurrences, if_neg hw, ih (fun hv => h (List.mem_cons.mpr (Or.inr hv)))]

theorem occurrences_eq_one {v : Text} {l : List Text} (hn : l.Nodup) (hm : v ∈ l) :
    occurrences v l = 1 := by
  induction l with
  | nil => cases hm
  | cons w ws ih =>
    rcases List.mem_cons.mp hm with rfl | hm'
    · rw [occurrences, if_pos rfl,
        occurrences_eq_zero (List.nodup_cons.mp hn).1]
    · have hw : ¬ w = v := fun hv =>
        (List.nodup_cons.mp hn).1 (hv ▸ hm')
      rw [occurrences, if_neg hw, ih (List.nodup_cons.mp hn).2 hm']

theorem nodup_undefList (tree : Node) (builtins : List Text) :
    (undefList tree builtins).Nodup := by
  unfold undefList
  exact ((nodup_scanVars (walk tree)).2).filter _

theorem occurrences_undefList (tree : Node) (builtins : List Text) (v : Text) :
    occurrences v (undefList tree builtins) =
      if v ∈ usedVars tree ∧ v ∉ definedVars tree ∧ v ∉ builtins then 1 else 0 := by
  by_cases hv : v ∈ usedVars tree ∧ v ∉ definedVars tree ∧ v ∉ builtins
  · rw [if_pos hv]
    exact occurrences_eq_one (nodup_undefList tree builtins) (mem_undefList.mpr hv)
  · rw [if_neg hv]
    exact occurrences_eq_zero (fun hm => hv (mem_undefList.mp hm))

theorem fix_undefined_variables_eq {parse : Text → Option Node}
    {builtins : List Text} {code : Text} {tree : Node} (h : parse code = some tree) :
    fix_undefined_variables parse builtins code =
      declarationsOf (undefList tree builtins) ++ code := by
  unfold fix_undefined_variables
  rw [h]
  dsimp only
  by_cases he : (undefList tree builtins).isEmpty = true
  · have hnil : undefList tree builtins = [] := List.isEmpty_iff.mp he
    rw [if_pos he, hnil]
    rfl
  · rw [if_neg he]

/-! Lemmas about whitespace token splitting, leading to: a stripped line
that starts with the text `return ` always has a second token. -/

theorem splitWsGo_token {t : Text} (ht : ∀ c ∈ t, ¬ isPySpace c = true) (u : Text)
    (acc : Text) : splitWsGo (t ++ u) acc = splitWsGo u (t.reverse ++ acc) := by
  induction t generalizing acc with
  | nil => simp
  | cons c cs ih =>
    have hc : ¬ isPySpace c = true := ht c (List.mem_cons_self c cs)
    rw [List.cons_append, splitWsGo, if_neg hc,
      ih (fun x hx => ht x (List.mem_cons.mpr (Or.inr hx))) (c :: acc)]
    rw [List.reverse_cons, List.append_assoc, List.singleton_append]

theorem splitWsGo_ne_nil {l : Text} {acc : Text}
    (h : (∃ c ∈ l, ¬ isPySpace c = true) ∨ acc ≠ []) : splitWsGo l acc ≠ [] := by
  induction l generalizing acc with
  | nil =>
    rcases h with ⟨c, hc, _⟩ | hacc
    · cases hc
    · cases acc with
      | nil => exact absurd rfl hacc
      | cons a as => simp [splitWsGo]
  | cons c cs ih =>
    by_cases hc : isPySpace c = true
    · rw [splitWsGo, if_pos hc]
      cases acc with
      | nil =>
        have hcs : ∃ x ∈ cs, ¬ isPySpace x = true := by
          rcases h with ⟨x, hx, hxs⟩ | hacc
          · rcases List.mem_cons.mp hx with rfl | hx'
            · exact absurd hc hxs
            · exact ⟨x, hx', hxs⟩
          · exact absurd rfl hacc
        simpa using ih (Or.inl hcs)
      | cons a as => simp
    · rw [splitWsGo, if_neg hc]
      exact ih (Or.inr (by simp))

theorem pySplitWs_second_token {l : Text}
    (h : (chars "return ").isPrefixOf (pyStrip l) = true) :
    ∃ rv, (pySplitWs (pyStrip l)).get? 1 = some rv := by
  obtain ⟨u, hu⟩ : ∃ u, chars "return " ++ u = pyStrip l :=
    List.isPrefixOf_iff_prefix.mp h
  have hun : ∃ c ∈ u, ¬ isPySpace c = true := by
    by_contra hall
    push_neg at hall
    cases u with
    | nil =>
      have hsp : (pyStrip l).getLast? = some ' ' := by
        rw [← hu]
        decide
      exact absurd (by decide : isPySpace ' ' = true) (pyStrip_getLast?_not_space hsp)
    | cons a as =>
      have hne : (a :: as) ≠ ([] : Text) := by simp
      have hsp : (pyStrip l).getLast? = some ((a :: as).getLast hne) := by
        rw [← hu, List.getLast?_append_of_ne_nil _ hne,
          List.getLast?_eq_getLast_of_ne_nil hne]
      exact absurd (hall _ (List.getLast_mem hne)) (pyStrip_getLast?_not_space hsp)
  have hsplit : pySplitWs (pyStrip l) = chars "return" :: splitWsGo u [] := by
    rw [← hu]
    have hr : chars "return " ++ u = chars "return" ++ (' ' :: u) := rfl
    rw [hr]
    unfold pySplitWs
    rw [splitWsGo_token (by decide) (' ' :: u) []]
    rfl
  rcases hq : splitWsGo u [] with _ | ⟨b, bs⟩
  · exact absurd hq (splitWsGo_ne_nil (Or.inl hun))
  · exact ⟨b, by rw [hsplit, hq]; rfl⟩

/-! The return-sanitisation stage in normal form. -/

theorem fixReturnLine_ok (defined : List Text) (line : Text) :
    fixReturnLine defined line = .ok (rewriteReturnLine defined line) := by
  unfold fixReturnLine rewriteReturnLine pyGet
  by_cases h : (chars "return ").isPrefixOf (pyStrip line) = true
  · rw [if_pos h, if_pos h]
    rcases pySplitWs_second_token h with ⟨rv, hrv⟩
    rw [hrv]
  · rw [if_neg h, if_neg h]

theorem fixReturnLines_ok (defined : List Text) (ls : List Text) :
    fixReturnLines defined ls = .ok (ls.map (rewriteReturnLine defined)) := by
  induction ls with
  | nil => rfl
  | cons l ls ih =>
    rw [fixReturnLines, fixReturnLine_ok defined l, ih]
    rfl

theorem fix_undefined_returns_eq {parse : Text → Option Node} {code : Text}
    {tree : Node} (h : parse code = some tree) :
    fix_undefined_returns parse code =
      joinNl ((splitNl code).map (rewriteReturnLine (returnsDefined tree))) := by
  unfold fix_undefined_returns
  rw [h]
  dsimp only
  rw [fixReturnLines_ok]

theorem nl_not_mem_rewriteReturnLine {defined : List Text} {line : Text}
    (h : '\n' ∉ line) : '\n' ∉ rewriteReturnLine defined line := by
  unfold rewriteReturnLine
  split
  · split
    · split
      · exact h
      · decide
    · exact h
  · exact h

theorem splitNl_fix_undefined_returns {parse : Text → Option Node} {code : Text}
    {tree : Node} (h : parse code = some tree) :
    splitNl (fix_undefined_returns parse code) =
      (splitNl code).map (rewriteReturnLine (returnsDefined tree)) := by
  rw [fix_undefined_returns_eq h]
  rw [splitNl_joinNl]
  · intro l hl
    rcases List.mem_map.mp hl with ⟨p, hp, rfl⟩
    exact nl_not_mem_rewriteReturnLine (not_mem_splitNl hp)
  · intro hc
    exact splitNl_ne_nil code (List.map_eq_nil_iff.mp hc)

theorem length_filterMap_isSome {α β : Type} (f : α → Option β) (l : List α) :
    (l.filterMap f).length = l.countP (fun a => (f a).isSome) := by
  induction l with
  | nil => rfl
  | cons a t ih =>
    rw [List.filterMap_cons, List.countP_cons]
    rcases hf : f a with _ | b
    · simp [hf, ih]
    · simp [hf, ih]

theorem isSome_isLongFn (threshold : Nat) (n : Node) :
    (isLongFn threshold n).isSome = longFnNode threshold n := by
  cases n with
  | functionDef nm args body ln =>
    unfold isLongFn longFnNode
    dsimp only
    by_cases h : threshold < body.length
    · rw [if_pos h]
      simp [h]
    · rw [if_neg h]
      simp [h]
  | assign a b => rfl
  | name a b => rfl
  | forStmt a b c => rfl
  | other a => rfl

/-! Claim theorems. -/

/-- C1, counterexample to the claim as stated: on the spec's end-to-end
input, the pipeline does prepend stubs for `x` and `y`, but the
return-sanitisation stage then leaves the line `        return y`
unchanged (it is line 4 of the final output), and no line of the output
is `return None` — contrary to the claim that the `return y` line is
rewritten to return the absence sentinel. -/
theorem C1_counterexample :
    auto_fix_code parseC1 builtinsDemo blackMissing inputC1 = textC1b ∧
    fix_undefined_returns parseC1 textC1b = textC1b ∧
    (splitNl textC1b).get? 4 = some (chars "        return y") ∧
    chars "return None" ∉ splitNl textC1b := by decide

/-- C1 (amended): on the input `def f():\n    if x > 5\n        return y\n`,
structural-token repair makes the `if` line end with a colon, scope
analysis finds `x` and `y` undefined, the pipeline prepends one stub
assignment for each, and the return-sanitisation stage then leaves the
`return y` line unchanged, because the stub has made `y` defined at that
stage; the final output (with the formatter unavailable) is the stubbed
text. -/
theorem C1_end_to_end :
    auto_fix_syntax_errors inputC1 = textC1a ∧
    (splitNl textC1a).get? 1 = some (chars "    if x > 5:") ∧
    undefList treeC1a builtinsDemo = [chars "x", chars "y"] ∧
    fix_undefined_variables parseC1 builtinsDemo textC1a = textC1b ∧
    fix_undefined_returns parseC1 textC1b = textC1b ∧
    auto_fix_code parseC1 builtinsDemo blackMissing inputC1 = textC1b := by decide

/-- C2, counterexample to the claim as stated: in
`for i in range(3):\n    print(i)`, the name `i` is bound only as the
loop's iteration variable, so the claimed stub set
`used − defined − loopBound − builtinNames` is empty — yet the stage
prepends the stub `i = 0`. -/
theorem C2_counterexample :
    fix_undefined_variables parseC2 builtinsDemo textC2 = chars "i = 0\n" ++ textC2 ∧
    chars "i" ∈ loopBoundVars treeC2 ∧
    specUndefined treeC2 builtinsDemo = [] := by decide

/-- C2 (amended): for every parseable input, the stub-insertion stage
prepends the declaration block of `used − defined − builtinNames` (the
stage maintains no loop-bound set, so loop iteration variables are not
excluded), with exactly one zero-default assignment per name in that set
and none for any other name. -/
theorem C2_stub_insertion {parse : Text → Option Node} {builtins : List Text}
    {code : Text} {tree : Node} (h : parse code = some tree) :
    fix_undefined_variables parse builtins code =
      declarationsOf (undefList tree builtins) ++ code ∧
    ∀ v, occurrences v (undefList tree builtins) =
      if v ∈ usedVars tree ∧ v ∉ definedVars tree ∧ v ∉ builtins then 1 else 0 :=
  ⟨fix_undefined_variables_eq h, fun v => occurrences_undefList tree builtins v⟩

theorem C2_stub_insertion_witness :
    fix_undefined_variables parseC2 builtinsDemo textC2 =
      declarationsOf (undefList treeC2 builtinsDemo) ++ textC2 ∧
    occurrences (chars "i") (undefList treeC2 builtinsDemo) = 1 := by
  have h := @C2_stub_insertion parseC2 builtinsDemo textC2 treeC2 rfl
  refine ⟨h.1, ?_⟩
  rw [h.2 (chars "i"),
    if_pos (show chars "i" ∈ usedVars treeC2 ∧ chars "i" ∉ definedVars treeC2 ∧
      chars "i" ∉ builtinsDemo by decide)]

/-- C3, counterexample to the claim as stated: in `print(a)\na = 1` the
name `a` is referenced (in the `print` call) before its defining
assignment in traversal order, yet the stub-insertion stage treats `a`
as defined — the computed undefined set is empty and the text is
returned unchanged, contrary to the claim that such a forward reference
is classified as undefined. -/
theorem C3_counterexample :
    fix_undefined_variables parseC3 builtinsDemo textC3 = textC3 ∧
    chars "a" ∈ usedVars treeC3 ∧
    chars "a" ∈ definedVars treeC3 ∧
    undefList treeC3 builtinsDemo = [] := by decide

/-- C3 (amended): the scope analysis of the stub-insertion stage is
order-insensitive — the scan collects the full `defined`/`used` sets
before the difference is taken, so membership in either set is invariant
under any permutation of the visited nodes, and a name with a defining
assignment anywhere (even after its uses) is never in the stub set. -/
theorem C3_order_insensitive :
    (∀ (ns ns' : List Node), ns.Perm ns' →
      ∀ v, (v ∈ (scanVars ns).1 ↔ v ∈ (scanVars ns').1) ∧
           (v ∈ (scanVars ns).2 ↔ v ∈ (scanVars ns').2)) ∧
    (∀ (tree : Node) (builtins : List Text) (v : Text),
      v ∈ definedVars tree → v ∉ undefList tree builtins) := by
  constructor
  · have hfst : ∀ (ms : List Node) (v : Text),
        v ∈ (scanVars ms).1 ↔ ∃ n ∈ ms, v ∈ definedNamesOf n := by
      intro ms v
      unfold scanVars
      rw [mem_foldl_scanStep_fst]
      simp
    have hsnd : ∀ (ms : List Node) (v : Text),
        v ∈ (scanVars ms).2 ↔ ∃ n ∈ ms, v ∈ usedNamesOf n := by
      intro ms v
      unfold scanVars
      rw [mem_foldl_scanStep_snd]
      simp
    intro ns ns' hperm v
    constructor
    · rw [hfst, hfst]
      constructor
      · rintro ⟨n, hn, hv⟩
        exact ⟨n, hperm.mem_iff.mp hn, hv⟩
      · rintro ⟨n, hn, hv⟩
        exact ⟨n, hperm.mem_iff.mpr hn, hv⟩
    · rw [hsnd, hsnd]
      constructor
      · rintro ⟨n, hn, hv⟩
        exact ⟨n, hperm.mem_iff.mp hn, hv⟩
      · rintro ⟨n, hn, hv⟩
        exact ⟨n, hperm.mem_iff.mpr hn, hv⟩
  · intro tree builtins v hv hmem
    exact (mem_undefList.mp hmem).2.1 hv

theorem C3_order_insensitive_witness :
    (chars "a" ∈ (scanVars (walk treeC3)).1 ↔
      chars "a" ∈ (scanVars ((walk treeC3).reverse)).1) ∧
    chars "a" ∉ undefList treeC3 builtinsDemo :=
  ⟨(C3_order_insensitive.1 (walk treeC3) ((walk treeC3).reverse)
      (List.reverse_perm (walk treeC3)).symm (chars "a")).1,
   C3_order_insensitive.2 treeC3 builtinsDemo (chars "a") (by decide)⟩

/-- C4, counterexample to the claim as stated: in
`def f():\n    return 5` the return operand is the literal `5`, not a
bare identifier, yet the stage rewrites the line (the token `5` is not
in the defined set), producing the unindented line `return None` —
contrary to the claim that lines returning literals are left
unchanged. -/
theorem C4_counterexample :
    fix_undefined_returns parseC4 textC4 = chars "def f():\nreturn None" ∧
    (splitNl textC4).get? 1 = some (chars "    return 5") ∧
    (splitNl (fix_undefined_returns parseC4 textC4)).get? 1 =
      some (chars "return None") ∧
    returnsDefined treeC4 = [] := by decide

/-- C4 (amended): the stage rewrites a line exactly when the line's
trimmed content starts with `return ` and the second
whitespace-separated token is not in the defined set — whether or not
the operand is a bare identifier, so literal and multi-token returns
whose first operand token is not a defined name are rewritten too; all
other lines are left unchanged. -/
theorem C4_return_rewrite {parse : Text → Option Node} {code : Text} {tree : Node}
    (h : parse code = some tree) :
    fix_undefined_returns parse code =
      joinNl ((splitNl code).map (rewriteReturnLine (returnsDefined tree))) ∧
    (∀ (d : List Text) (l : Text), fixReturnLine d l = .ok (rewriteReturnLine d l)) ∧
    (∀ (d : List Text) (l : Text),
      ¬ (chars "return ").isPrefixOf (pyStrip l) = true → rewriteReturnLine d l = l) ∧
    (∀ (d : List Text) (l : Text) (rv : Text),
      (chars "return ").isPrefixOf (pyStrip l) = true →
      (pySplitWs (pyStrip l)).get? 1 = some rv →
      rewriteReturnLine d l = if rv ∈ d then l else chars "return None") := by
  refine ⟨fix_undefined_returns_eq h, fixReturnLine_ok, ?_, ?_⟩
  · intro d l hl
    unfold rewriteReturnLine
    rw [if_neg hl]
  · intro d l rv hpre hrv
    unfold rewriteReturnLine
    rw [if_pos hpre, hrv]

theorem C4_return_rewrite_witness :
    fix_undefined_returns parseC4 textC4 =
      joinNl ((splitNl textC4).map (rewriteReturnLine (returnsDefined treeC4))) ∧
    rewriteReturnLine [] (chars "    return 5") = chars "return None" := by
  have h := C4_return_rewrite (show parseC4 textC4 = some treeC4 from rfl)
  refine ⟨h.1, ?_⟩
  rw [h.2.2.2 [] (chars "    return 5") (chars "5") (by decide) (by decide)]
  decide

/-- C5 (spec-modelled — the detector is not under src/): the
long-function detector emits one CodeSmell issue per function-definition
node whose immediate body statement count exceeds the threshold, naming
the function and the count at the function's definition line, and no
other issue; in particular a function with 25 single-statement body
lines under the default threshold 20 yields exactly one such issue with
count 25. -/
theorem C5_long_function :
    (∀ (threshold : Nat) (tree : Node),
      (longFunctionCheck threshold tree).length =
        (walk tree).countP (longFnNode threshold)) ∧
    (∀ (threshold : Nat) (tree : Node), ∀ i ∈ longFunctionCheck threshold tree,
      i.kind = .codeSmell ∧ ∃ nm args body ln,
        Node.functionDef nm args body ln ∈ walk tree ∧ threshold < body.length ∧
        i.message = mkLongMsg nm body.length ∧ i.line = ln) ∧
    longFunctionCheck 20 bigFnTree =
      [⟨.codeSmell, mkLongMsg (chars "big") 25, 1⟩] := by
  refine ⟨?_, ?_, ?_⟩
  · intro threshold tree
    unfold longFunctionCheck
    rw [length_filterMap_isSome]
    exact List.countP_congr (fun n _ => by rw [isSome_isLongFn threshold n])
  · intro threshold tree i hi
    rcases List.mem_filterMap.mp hi with ⟨n, hn, hfn⟩
    cases n with
    | functionDef nm args body ln =>
      unfold isLongFn at hfn
      dsimp only at hfn
      by_cases hlen : threshold < body.length
      · rw [if_pos hlen] at hfn
        cases hfn
        exact ⟨rfl, nm, args, body, ln, hn, hlen, rfl, rfl⟩
      · rw [if_neg hlen] at hfn
        cases hfn
    | assign a b => cases hfn
    | name a b => cases hfn
    | forStmt a b c => cases hfn
    | other a => cases hfn
  · decide

theorem C5_long_function_witness :
    (longFunctionCheck 20 bigFnTree).length = (walk bigFnTree).countP (longFnNode 20) ∧
    (Issue.mk .codeSmell (mkLongMsg (chars "big") 25) 1).kind = .codeSmell := by
  refine ⟨C5_long_function.1 20 bigFnTree, ?_⟩
  have hm : (Issue.mk .codeSmell (mkLongMsg (chars "big") 25) 1) ∈
      longFunctionCheck 20 bigFnTree := by
    rw [C5_long_function.2.2]
    exact List.mem_cons_self _ _
  exact (C5_long_function.2.1 20 bigFnTree _ hm).1

/-- C6, counterexample to the claim as stated: on the input
`if<TAB>x > 5`, the first pipeline run only expands the tab (the colon
regex requires a literal space after the keyword, so nothing structural
happens and the result does not parse), but the second run then inserts
a colon, a placeholder `    pass` body, and a stub `x = 0` — further
structural-token insertions and stub insertions on a first run's
output. -/
theorem C6_counterexample :
    noBlackPipe parseC6 builtinsDemo inputC6 = textC6a ∧
    noBlackPipe parseC6 builtinsDemo textC6a = textC6c ∧
    passLine ∈ splitNl textC6c ∧ passLine ∉ splitNl textC6a ∧
    chars "x = 0" ∈ splitNl textC6c ∧ chars "x = 0" ∉ splitNl textC6a ∧
    chars "if    x > 5:" ∈ splitNl textC6c ∧
    chars "if    x > 5:" ∉ splitNl textC6a := by decide

/-- C6 (amended): the full pipeline is not idempotent — a second run can
insert further colons, placeholder bodies and stubs (tab-containing
counterexample) — but two stages are: line truncation is idempotent on
every input, and structural-token repair is idempotent on every input
that contains no tab character. -/
theorem C6_partial_idempotence :
    (∀ code : Text, fix_style_issues (fix_style_issues code) = fix_style_issues code) ∧
    (∀ code : Text, '\t' ∉ code →
      auto_fix_syntax_errors (auto_fix_syntax_errors code) =
        auto_fix_syntax_errors code) :=
  ⟨fix_style_idem, fun _ h => fixSyntax_idem h⟩

theorem C6_partial_idempotence_witness :
    fix_style_issues (fix_style_issues (chars "abc")) = fix_style_issues (chars "abc") ∧
    auto_fix_syntax_errors (auto_fix_syntax_errors (chars "if x > 5")) =
      auto_fix_syntax_errors (chars "if x > 5") :=
  ⟨C6_partial_idempotence.1 (chars "abc"),
   C6_partial_idempotence.2 (chars "if x > 5") (by decide)⟩

/-- C7, counterexample to the claim as stated: on the single-line input
`a<TAB>b`, the output line is `a    b`, which is neither the input line,
nor the input line with an appended delimiter, nor a placeholder-body
line — the stage also rewrites line contents by expanding tabs. -/
theorem C7_counterexample :
    splitNl (auto_fix_syntax_errors (chars "a\tb")) = [chars "a    b"] ∧
    ¬ (chars "a    b" = chars "a\tb" ∨ chars "a    b" = chars "a\tb" ++ [':'] ∨
       chars "a    b" = passLine) := by decide

/-- C7 (amended): structural-token repair maps each input line to itself
or to itself with an appended colon, then expands tabs to four-space
runs within lines, and finally inserts placeholder-body lines; the
mapped input lines survive in order as a sublist of the output, every
output line is a mapped input line or the placeholder, and the output
line count is the input line count plus the number of inserted
placeholder lines. -/
theorem C7_monotone (code : Text) :
    splitNl (auto_fix_syntax_errors code) =
      insertPass ((splitNl code).map (fun l => expandTabs (colonize1 l))) ∧
    ((splitNl code).map (fun l => expandTabs (colonize1 l))).Sublist
      (splitNl (auto_fix_syntax_errors code)) ∧
    (splitNl (auto_fix_syntax_errors code)).length =
      (splitNl code).length +
        passCount ((splitNl code).map (fun l => expandTabs (colonize1 l))) ∧
    (∀ m ∈ splitNl (auto_fix_syntax_errors code),
      m ∈ (splitNl code).map (fun l => expandTabs (colonize1 l)) ∨ m = passLine) ∧
    (∀ l : Text, colonize1 l = l ∨ colonize1 l = l ++ [':']) := by
  have heq : splitNl (auto_fix_syntax_errors code) =
      insertPass ((splitNl code).map (fun l => expandTabs (colonize1 l))) := by
    rw [fixSyntax_eq]
    rw [splitNl_joinNl]
    · intro m hm
      rcases mem_insertPass hm with h' | h'
      · rcases List.mem_map.mp h' with ⟨p, hp, rfl⟩
        exact nl_not_mem_expandTabs (nl_not_mem_colonize1 (not_mem_splitNl hp))
      · subst h'
        decide
    · exact insertPass_ne_nil
        (fun hc => splitNl_ne_nil code (List.map_eq_nil_iff.mp hc))
  refine ⟨heq, ?_, ?_, ?_, colonize1_eq_or⟩
  · rw [heq]
    exact sublist_insertPass _
  · rw [heq, length_insertPass, List.length_map]
  · intro m hm
    rw [heq] at hm
    exact mem_insertPass hm

theorem C7_monotone_witness :
    splitNl (auto_fix_syntax_errors (chars "if x > 5")) =
      insertPass ((splitNl (chars "if x > 5")).map (fun l => expandTabs (colonize1 l))) ∧
    colonize1 (chars "if x > 5") = chars "if x > 5" ++ [':'] := by
  refine ⟨(C7_monotone (chars "if x > 5")).1, ?_⟩
  rcases (C7_monotone (chars "if x > 5")).2.2.2.2 (chars "if x > 5") with h | h
  · exact absurd h (by decide)
  · exact h

/-- C8: line truncation leaves every line of length at most 100
unchanged and replaces every longer line by exactly its first 100
characters followed by the fixed marker `  # truncated` (total length
113); the output lines are the per-line images of the input lines. -/
theorem C8_truncation (code : Text) :
    splitNl (fix_style_issues code) = (splitNl code).map styleLine ∧
    (∀ l : Text, 100 < l.length →
      styleLine l = l.take 100 ++ chars "  # truncated" ∧ (styleLine l).length = 113) ∧
    (∀ l : Text, l.length ≤ 100 → styleLine l = l) := by
  refine ⟨splitNl_fix_style code, ?_, ?_⟩
  · intro l hl
    constructor
    · unfold styleLine
      rw [if_pos hl]
    · exact length_styleLine_gt hl
  · intro l hl
    unfold styleLine
    rw [if_neg (by omega)]

theorem C8_truncation_witness :
    splitNl (fix_style_issues (chars "ab")) = (splitNl (chars "ab")).map styleLine ∧
    styleLine (List.replicate 101 'a') =
      (List.replicate 101 'a').take 100 ++ chars "  # truncated" ∧
    styleLine (chars "ab") = chars "ab" := by
  refine ⟨(C8_truncation (chars "ab")).1, ?_, ?_⟩
  · exact ((C8_truncation (chars "ab")).2.1 (List.replicate 101 'a') (by simp)).1
  · exact (C8_truncation (chars "ab")).2.2 (chars "ab") (by decide)

/-- C9: the delegated-formatting stage never aborts the pipeline — if
any of the three external steps (writing the temporary file, invoking
the formatter, reading the file back) fails, the stage returns its input
text unchanged. -/
theorem C9_black_no_abort (env : BlackEnv) (code : Text)
    (h : env.writeTemp code = .error () ∨
      (∃ f, env.writeTemp code = .ok f ∧
        (env.runBlack f = .error () ∨
          (env.runBlack f = .ok () ∧ env.readBack f = .error ())))) :
    auto_format_with_black env code = code := by
  unfold auto_format_with_black
  rcases h with h | ⟨f, hf, h⟩
  · rw [h]
  · rw [hf]
    dsimp only
    rcases h with h | ⟨h1, h2⟩
    · rw [h]
    · rw [h1]
      dsimp only
      rw [h2]

theorem C9_black_no_abort_witness :
    auto_format_with_black blackMissing (chars "x = 1") = chars "x = 1" :=
  C9_black_no_abort blackMissing (chars "x = 1")
    (Or.inr ⟨chars "/tmp/t.py", rfl, Or.inl rfl⟩)

/-- C10: when the return-sanitisation stage rewrites a line (its trimmed
content starts with `return ` and the operand token is not a defined
name), the entire physical line is replaced by the unindented text
`return None`, whatever the original line's indentation was. -/
theorem C10_return_unindented {parse : Text → Option Node} {code : Text} {tree : Node}
    (h : parse code = some tree) (i : Nat) (line : Text)
    (hl : (splitNl code).get? i = some line)
    (hpre : (chars "return ").isPrefixOf (pyStrip line) = true)
    (rv : Text) (hrv : (pySplitWs (pyStrip line)).get? 1 = some rv)
    (hnd : rv ∉ returnsDefined tree) :
    (splitNl (fix_undefined_returns parse code)).get? i =
      some (chars "return None") := by
  rw [splitNl_fix_undefined_returns h, List.get?_map, hl]
  show some (rewriteReturnLine (returnsDefined tree) line) = _
  unfold rewriteReturnLine
  rw [if_pos hpre, hrv]
  dsimp only
  rw [if_neg hnd]

theorem C10_return_unindented_witness :
    (splitNl (fix_undefined_returns parseC10 textC10)).get? 1 =
      some (chars "return None") :=
  C10_return_unindented (show parseC10 textC10 = some treeC10 from rfl) 1
    (chars "        return q") (by decide) (by decide) (chars "q") (by decide)
    (by decide)

end Demo
